import Mathlib

/-!
# Binary counter with dual 7-segment display (`hello_world.c`)

A shallow embedding of the shift-register driver (`shiftOut`), the segment
encoder (`displayInt`), the interrupt handler (`am_gpio_isr`) and the counter
loop of `main`.  A function that writes GPIO pins is embedded as the list of
pin writes it makes, in program order; a pin state is a map from pin numbers to
levels, and a list of writes is run on it from left to right.
-/

namespace BinaryCounter

/-! ## GPIO pin definitions (lines 56-73) -/

def GPIO_SER_BIN : Nat := 25
def GPIO_OE_BIN : Nat := 26
def GPIO_CLK_BIN : Nat := 28
def GPIO_CLR_BIN : Nat := 33

def GPIO_SER_SEG : Nat := 32
def GPIO_OE_SEG : Nat := 31
def GPIO_CLK_SEG : Nat := 30
def GPIO_CLR_SEG : Nat := 29

def BINARY_REG : Int := 0
def SEGMENT_REG : Int := 1

def ONES : Nat := 8
def TENS : Nat := 9
def HUNDREDS1 : Nat := 40
def HUNDREDS2 : Nat := 39

/-! ## Observable actions and pin states -/

/-- One observable action of the program: `bitSet pin` is
`am_hal_gpio_out_bit_set(pin)`, `bitClear pin` is
`am_hal_gpio_out_bit_clear(pin)`, `delayMs n` is `am_util_delay_ms(n)` and
`printf n` is `am_util_stdio_printf("%3.0u \r", n)`. -/
inductive Ev where
  | bitSet (pin : Nat)
  | bitClear (pin : Nat)
  | delayMs (n : Nat)
  | printf (n : Nat)
  deriving DecidableEq, Repr

/-- Levels of the GPIO output pins, by pin number (`true` is high). -/
abbrev Pins := Nat → Bool

/-- The pin an action writes, if it writes one. -/
def Ev.pin? : Ev → Option Nat
  | .bitSet pin => some pin
  | .bitClear pin => some pin
  | .delayMs _ => none
  | .printf _ => none

/-- Effect of one action on the pin levels. -/
def Ev.apply (e : Ev) (p : Pins) : Pins :=
  match e with
  | .bitSet pin => fun q => if q = pin then true else p q
  | .bitClear pin => fun q => if q = pin then false else p q
  | .delayMs _ => p
  | .printf _ => p

/-- Pin levels after a sequence of actions, performed left to right. -/
def run (tr : List Ev) (p : Pins) : Pins :=
  tr.foldl (fun s e => e.apply s) p

/-! ## Machine integers -/

/-- Two's-complement wrap of an integer to the 32-bit `int` of the target. -/
def wrap32 (z : Int) : Int := (z + 2147483648) % 4294967296 - 2147483648

/-- Conversion of an `int` to `uint8_t`. -/
def uint8 (z : Int) : Nat := (z % 256).toNat

/-! ## `shiftOut` (lines 312-349) -/

/-- The loop `for (int x = 0; x <= 8; x++)` of `shiftOut`, from the loop
variable `x` on; `fuel` bounds the number of evaluations of the loop
condition. -/
def shiftOutLoop (value SER CLK : Nat) : Nat → Nat → List Ev
  | 0, _ => []
  | fuel + 1, x =>
    if x ≤ 8 then
      [if value &&& (1 <<< x) ≠ 0 then Ev.bitSet SER else Ev.bitClear SER,
        Ev.bitSet CLK, Ev.bitClear CLK]
        ++ shiftOutLoop value SER CLK fuel (x + 1)
    else []

/-- The `switch (reg)` of `shiftOut`: the lines `(SER, CLK, CLR)` of the
addressed register. No case matches another `reg`, which leaves the three
variables uninitialised (`none`). -/
def shiftOutLines (reg : Int) : Option (Nat × Nat × Nat) :=
  if reg = BINARY_REG then some (GPIO_SER_BIN, GPIO_CLK_BIN, GPIO_CLR_BIN)
  else if reg = SEGMENT_REG then some (GPIO_SER_SEG, GPIO_CLK_SEG, GPIO_CLR_SEG)
  else none

/-- The function `void shiftOut(uint8_t value, int reg)`: the pin writes it makes, in order.
`value` is the `uint8_t` argument as received. The loop condition is evaluated
ten times (nine passes and the failing check), which is the fuel given. -/
def shiftOut (value : Nat) (reg : Int) : Option (List Ev) :=
  match shiftOutLines reg with
  | none => none
  | some (SER, CLK, CLR) =>
    some ([Ev.bitClear CLR, Ev.bitSet CLR] ++ shiftOutLoop value SER CLK 10 0)

/-! ## `displayInt` (lines 372-401) -/

/-- The table `uint8_t array[10]` of `displayInt`. -/
def array : List Nat := [0x77, 0x11, 0x6B, 0x3B, 0x1D, 0x3E, 0x7E, 0x13, 0x7F, 0x3F]

/-- Lines 375-397 of `displayInt`: the writes to the hundreds LEDs and the
value of `multiple` that indexes `array`. C division and remainder truncate
towards zero. -/
def displayIntHead (number place : Int) : List Ev × Int :=
  let tr0 : List Ev := [Ev.bitClear HUNDREDS1, Ev.bitClear HUNDREDS2]
  let s1 : Int × List Ev :=
    if number ≥ 200 then (number - 100, tr0 ++ [Ev.bitSet HUNDREDS1]) else (number, tr0)
  let s2 : Int × List Ev :=
    if s1.1 ≥ 100 then (s1.1 - 100, s1.2 ++ [Ev.bitSet HUNDREDS2]) else s1
  let multiple : Int := if place = 0 then Int.tmod s2.1 10 else Int.tdiv s2.1 10
  (s2.2, multiple)

/-- The function `void displayInt(int number, int place)`: the pin writes it makes, in
order. An index outside `array` has no defined result (`none`). `~array[multiple]`
is computed on `int` and converted to the `uint8_t` parameter of `shiftOut`. -/
def displayInt (number place : Int) : Option (List Ev) :=
  let h := displayIntHead number place
  if 0 ≤ h.2 then
    match array[h.2.toNat]? with
    | none => none
    | some a =>
      match shiftOut (uint8 (~~~ (a : Int))) 1 with
      | none => none
      | some s => some (h.1 ++ s)
  else none

/-! ## The interrupt handler (lines 356-363) and the global `delay` -/

/-- Initial value of `static int delay = 100;` (line 54). -/
def delayInit : Int := 100

/-- The handler `void am_gpio_isr(void)`: its effect on the global `delay`, a 32-bit `int`
(`delay += 100`). Clearing the interrupt source writes no GPIO output pin. -/
def am_gpio_isr (delay : Int) : Int := wrap32 (delay + 100)

/-- The global `delay` after `n` successive handler invocations. -/
def isrTimes : Nat → Int → Int
  | 0, delay => delay
  | n + 1, delay => isrTimes n (am_gpio_isr delay)

/-- Number of handler invocations that a schedule `irq` places in the `n` slots
`x, x+1, ..., x+n-1`. -/
def irqSum (irq : Nat → Nat) : Nat → Nat → Nat
  | _, 0 => 0
  | x, n + 1 => irq x + irqSum irq (x + 1) n

/-! ## `main` (lines 174-304) -/

/-- Pin writes of `main` before the counter loop (lines 209-236 and 249-257). -/
def mainInit : List Ev :=
  [ Ev.bitClear GPIO_SER_BIN, Ev.bitClear GPIO_OE_BIN, Ev.bitClear GPIO_CLK_BIN,
    Ev.bitClear GPIO_CLR_BIN, Ev.bitSet GPIO_OE_BIN, Ev.bitSet GPIO_CLR_BIN,
    Ev.bitClear GPIO_SER_SEG, Ev.bitClear GPIO_OE_SEG, Ev.bitClear GPIO_CLK_SEG,
    Ev.bitClear GPIO_CLR_SEG, Ev.bitSet GPIO_OE_SEG, Ev.bitSet GPIO_CLR_SEG,
    Ev.bitClear ONES, Ev.bitClear TENS, Ev.bitClear HUNDREDS1, Ev.bitClear HUNDREDS2,
    Ev.bitClear GPIO_CLR_BIN, Ev.bitClear GPIO_CLK_BIN, Ev.bitSet GPIO_CLK_BIN,
    Ev.bitSet GPIO_CLR_BIN,
    Ev.bitClear GPIO_CLR_SEG, Ev.bitClear GPIO_CLK_SEG, Ev.bitSet GPIO_CLK_SEG,
    Ev.bitSet GPIO_CLR_SEG ]

/-- One multiplexer pass: the body of the `for` loop of `main` (lines 271-293),
for the counter value `integer` (a `uint8_t`). -/
def pass (integer : Nat) : Option (List Ev) :=
  match displayInt integer 0 with
  | none => none
  | some d0 =>
    match displayInt integer 1 with
    | none => none
    | some d1 =>
      some ([Ev.bitSet ONES, Ev.bitClear TENS] ++ d0
        ++ [Ev.bitClear GPIO_OE_SEG, Ev.delayMs 1, Ev.bitSet GPIO_OE_SEG]
        ++ [Ev.bitSet TENS, Ev.bitClear ONES] ++ d1
        ++ [Ev.bitClear GPIO_OE_SEG, Ev.delayMs 1, Ev.bitSet GPIO_OE_SEG])

/-- What a run of the dwell loop, or of one iteration of the counter loop,
has done: the pin writes made, the global `delay` at the end, the number of
multiplexer passes made, and whether the dwell loop reached its exit
(`finished = false`: the run was cut off while the loop was still going). -/
structure DwellResult where
  trace : List Ev
  delay : Int
  passes : Nat
  finished : Bool
  deriving DecidableEq, Repr

/-- The dwell loop `for (int x = 0; x < delay; x++)` of `main` (line 269), from
the loop variable `x` on. The condition reads the global `delay` each time it is
evaluated; `irq x` is the number of handler invocations between the evaluation
of the condition at `x` and the next one, and `fuel` bounds the number of
evaluations. `x + 1` cannot overflow, as `x < delay` and `delay` is an `int`. -/
def dwellLoop (integer : Nat) (irq : Nat → Nat) : Nat → Nat → Int → Option DwellResult
  | 0, _, delay => some ⟨[], delay, 0, false⟩
  | fuel + 1, x, delay =>
    if (x : Int) < delay then
      match pass integer with
      | none => none
      | some p =>
        match dwellLoop integer irq fuel (x + 1) (isrTimes (irq x) delay) with
        | none => none
        | some r => some ⟨p ++ r.trace, r.delay, r.passes + 1, r.finished⟩
    else some ⟨[], delay, 0, true⟩

/-- One iteration of `while (1)` in `main` (lines 262-302) without the
increment of `integer`: `before` handler invocations happen before the dwell
loop first evaluates its condition, and `irq` schedules those during it. -/
def whileBody (integer before : Nat) (irq : Nat → Nat) (fuel : Nat) (delay : Int) :
    Option DwellResult :=
  match shiftOut integer BINARY_REG with
  | none => none
  | some sh =>
    match dwellLoop integer irq fuel 0 (isrTimes before delay) with
    | none => none
    | some r =>
      some ⟨sh ++ [Ev.bitClear GPIO_OE_BIN] ++ r.trace
              ++ (if r.finished then [Ev.bitSet GPIO_OE_BIN, Ev.printf integer] else []),
            r.delay, r.passes, r.finished⟩

/-- A schedule of button interrupts: `before k` handler invocations in
iteration `k` of the counter loop ahead of its dwell loop (and after the exit of
the previous one), `during k x` during pass `x` of its dwell loop. -/
structure Schedule where
  before : Nat → Nat
  during : Nat → Nat → Nat

/-- The schedule without any button interrupt. -/
def Schedule.none : Schedule := ⟨fun _ => 0, fun _ _ => 0⟩

/-- The first `iters` iterations of `while (1)` in `main`, starting with
iteration number `k`; `integer++` wraps at 256 (`uint8_t`). The pin writes stop
where a dwell loop is cut off. -/
def mainLoop (sched : Schedule) (fuel : Nat) : Nat → Nat → Nat → Int → Option (List Ev)
  | 0, _, _, _ => some []
  | iters + 1, k, integer, delay =>
    match whileBody integer (sched.before k) (sched.during k) fuel delay with
    | none => none
    | some r =>
      if r.finished then
        match mainLoop sched fuel iters (k + 1) ((integer + 1) % 256) r.delay with
        | none => none
        | some tr => some (r.trace ++ tr)
      else some r.trace

/-- The pin writes of `main` in its counter loop, up to `iters` iterations:
`integer` starts at 0 and `delay` at its initial value. -/
def mainTrace (sched : Schedule) (fuel iters : Nat) : Option (List Ev) :=
  mainLoop sched fuel iters 0 0 delayInit

/-! ## Definitions used to state the properties -/

/-- The write sequence of `shiftOut` as the specification describes it: clear
line low then high, then for `x = 0, ..., 8` the data line set to bit `x` of
`value` and a clock pulse high then low. -/
def shiftOutSequence (value SER CLK CLR : Nat) : List Ev :=
  [Ev.bitClear CLR, Ev.bitSet CLR] ++
    ((List.range 9).map (fun x =>
      [if value.testBit x then Ev.bitSet SER else Ev.bitClear SER,
        Ev.bitSet CLK, Ev.bitClear CLK])).flatten

/-- Number of hundreds indicators that are high. -/
def hundredsCount (p : Pins) : Nat :=
  (if p HUNDREDS1 then 1 else 0) + (if p HUNDREDS2 then 1 else 0)

/-- Modelled from the spec: an 8-bit serial-in shift register on the lines
`SER`, `CLK`, `CLR`, as the specification describes the SN74HC595 (the device is
no part of the source). A write that leaves the clear line low zeroes the
contents; otherwise a write that takes the clock line from low to high shifts
the level of the data line in. The state is the pin levels and the contents. -/
def regStep (SER CLK CLR : Nat) (s : Pins × Nat) (e : Ev) : Pins × Nat :=
  let p := e.apply s.1
  if p CLR = false then (p, 0)
  else if s.1 CLK = false ∧ p CLK = true then (p, (2 * s.2 + (if p SER then 1 else 0)) % 256)
  else (p, s.2)

/-- The shift register driven by a sequence of pin writes. -/
def regRun (SER CLK CLR : Nat) (tr : List Ev) (s : Pins × Nat) : Pins × Nat :=
  tr.foldl (regStep SER CLK CLR) s

/-- The number of writes in `tr` that drive `GPIO_OE_SEG` low. -/
def oeSegClears (tr : List Ev) : Nat := tr.count (Ev.bitClear GPIO_OE_SEG)

/-- The writes of `tr` leave every pin of `pins` alone. -/
def Avoids (pins : List Nat) (tr : List Ev) : Prop :=
  ∀ e ∈ tr, ∀ q ∈ pins, e.pin? ≠ some q

/-- The predicate `Along Q done todo p`: with the writes `done` made already and the pins at
`p`, the property `Q` holds of the writes made so far and of the pin state after
each single action of `todo`. -/
def Along (Q : List Ev → Pins → Prop) : List Ev → List Ev → Pins → Prop
  | _, [], _ => True
  | done, e :: todo, p => Q (done ++ [e]) (e.apply p) ∧ Along Q (done ++ [e]) todo (e.apply p)

/-- The state between the blocks of the counter loop: the segment outputs are
disabled (`GPIO_OE_SEG` high) and at most one anode is high. -/
def Dark (s : Pins) : Prop :=
  s GPIO_OE_SEG = true ∧ ¬ (s ONES = true ∧ s TENS = true)

/-- After the writes `pre`, in state `s`: if both anodes are high, then the
segment outputs are disabled and the last write made was the set of an anode. -/
def AnodesOk (pre : List Ev) (s : Pins) : Prop :=
  s ONES = true ∧ s TENS = true →
    s GPIO_OE_SEG = true ∧
      (pre.getLast? = some (Ev.bitSet ONES) ∨ pre.getLast? = some (Ev.bitSet TENS))

/-- From a `Dark` state, `AnodesOk` after every action of `tr`, which ends in
a `Dark` state. -/
def Keeps (tr : List Ev) : Prop :=
  ∀ (done : List Ev) (s : Pins), Dark s → Along AnodesOk done tr s ∧ Dark (run tr s)

/-! # Theorems -/

/-! ## Pin writes and pin states -/

theorem run_nil (p : Pins) : run [] p = p := rfl

theorem run_cons (e : Ev) (tr : List Ev) (p : Pins) : run (e :: tr) p = run tr (e.apply p) := rfl

theorem run_append (a b : List Ev) (p : Pins) : run (a ++ b) p = run b (run a p) := by
  simp [run, List.foldl_append]

theorem apply_other (e : Ev) (p : Pins) (q : Nat) (h : e.pin? ≠ some q) : e.apply p q = p q := by
  cases e with
  | bitSet pin =>
    have : q ≠ pin := fun h2 => h (by simp [Ev.pin?, h2])
    simp [Ev.apply, this]
  | bitClear pin =>
    have : q ≠ pin := fun h2 => h (by simp [Ev.pin?, h2])
    simp [Ev.apply, this]
  | delayMs n => rfl
  | printf n => rfl

theorem run_frame (tr : List Ev) (p : Pins) (q : Nat) (h : ∀ e ∈ tr, e.pin? ≠ some q) :
    run tr p q = p q := by
  induction tr generalizing p with
  | nil => rfl
  | cons e tr ih =>
    rw [run_cons, ih _ (fun e he => h e (List.mem_cons_of_mem _ he)),
      apply_other e p q (h e (List.mem_cons_self _ _))]

theorem bit_test (value x : Nat) : (value &&& (1 <<< x) ≠ 0) ↔ value.testBit x = true := by
  rw [Nat.one_shiftLeft, Nat.and_two_pow]
  cases value.testBit x <;> simp

theorem shiftOutLoop_eq (value SER CLK : Nat) :
    shiftOutLoop value SER CLK 10 0 =
      ((List.range 9).map (fun x =>
        [if value.testBit x then Ev.bitSet SER else Ev.bitClear SER,
          Ev.bitSet CLK, Ev.bitClear CLK])).flatten := by
  simp only [shiftOutLoop, bit_test]
  simp [List.range, List.range.loop]

theorem shiftOutLoop_fuel (value SER CLK fuel : Nat) (h : 10 ≤ fuel) :
    shiftOutLoop value SER CLK fuel 0 = shiftOutLoop value SER CLK 10 0 := by
  obtain ⟨k, rfl⟩ : ∃ k, fuel = k + 10 := ⟨fuel - 10, by omega⟩
  simp only [shiftOutLoop]
  simp

theorem shiftOut_binary (value : Nat) :
    shiftOut value BINARY_REG =
      some (shiftOutSequence value GPIO_SER_BIN GPIO_CLK_BIN GPIO_CLR_BIN) := by
  simp [shiftOut, shiftOutLines, shiftOutSequence, shiftOutLoop_eq]

theorem shiftOut_segment (value : Nat) :
    shiftOut value SEGMENT_REG =
      some (shiftOutSequence value GPIO_SER_SEG GPIO_CLK_SEG GPIO_CLR_SEG) := by
  simp [shiftOut, shiftOutLines, shiftOutSequence, shiftOutLoop_eq, SEGMENT_REG, BINARY_REG]

theorem shiftOutSequence_pins (value SER CLK CLR : Nat) :
    ∀ e ∈ shiftOutSequence value SER CLK CLR,
      e.pin? = some SER ∨ e.pin? = some CLK ∨ e.pin? = some CLR := by
  intro e he
  simp only [shiftOutSequence, List.mem_append, List.mem_flatten, List.mem_map] at he
  rcases he with he | ⟨l, ⟨x, -, rfl⟩, he⟩
  · simp at he
    rcases he with rfl | rfl <;> simp [Ev.pin?]
  · simp at he
    rcases he with rfl | rfl | rfl
    · split <;> simp [Ev.pin?]
    · simp [Ev.pin?]
    · simp [Ev.pin?]

theorem shiftOutSequence_clock_count (value SER CLK CLR : Nat) (h1 : SER ≠ CLK) (h2 : CLR ≠ CLK) :
    (shiftOutSequence value SER CLK CLR).count (Ev.bitSet CLK) = 9 ∧
    (shiftOutSequence value SER CLK CLR).count (Ev.bitClear CLK) = 9 := by
  have a : ∀ (c : Prop) [Decidable c],
      ¬ (if c then Ev.bitSet SER else Ev.bitClear SER) = Ev.bitSet CLK := by
    intro c _; split <;> simp [h1]
  have b : ∀ (c : Prop) [Decidable c],
      ¬ (if c then Ev.bitSet SER else Ev.bitClear SER) = Ev.bitClear CLK := by
    intro c _; split <;> simp [h1]
  simp [shiftOutSequence, List.range, List.range.loop, List.count_cons, a, b, h2]

/-- Claim C4. For every 8-bit `value` and `reg` in {`BINARY_REG`, `SEGMENT_REG`},
`shiftOut(value, reg)` returns and its complete sequence of pin writes is: clear
line low, clear line high, then for `x = 0, ..., 8` in order the data line set to
bit `x` of `value`, clock high, clock low, all on the addressed register's own
lines. It has exactly nine clock pulses, the data write of the ninth pulse is
low, and neither an output-enable pin nor a pin of the other register is
written. -/
theorem shiftOut_write_sequence (value : Nat) (hv : value < 256) (reg : Int)
    (hr : reg = BINARY_REG ∨ reg = SEGMENT_REG) :
    ∃ SER CLK CLR tr,
      shiftOutLines reg = some (SER, CLK, CLR) ∧
      (reg = BINARY_REG → SER = GPIO_SER_BIN ∧ CLK = GPIO_CLK_BIN ∧ CLR = GPIO_CLR_BIN) ∧
      (reg = SEGMENT_REG → SER = GPIO_SER_SEG ∧ CLK = GPIO_CLK_SEG ∧ CLR = GPIO_CLR_SEG) ∧
      shiftOut value reg = some tr ∧
      tr = shiftOutSequence value SER CLK CLR ∧
      tr.length = 29 ∧
      tr.count (Ev.bitSet CLK) = 9 ∧ tr.count (Ev.bitClear CLK) = 9 ∧
      tr[26]? = some (Ev.bitClear SER) ∧
      (∀ e ∈ tr, e.pin? = some SER ∨ e.pin? = some CLK ∨ e.pin? = some CLR) ∧
      (∀ e ∈ tr, e.pin? ≠ some GPIO_OE_BIN ∧ e.pin? ≠ some GPIO_OE_SEG) ∧
      (reg = BINARY_REG → ∀ e ∈ tr, e.pin? ≠ some GPIO_SER_SEG ∧
        e.pin? ≠ some GPIO_CLK_SEG ∧ e.pin? ≠ some GPIO_CLR_SEG) ∧
      (reg = SEGMENT_REG → ∀ e ∈ tr, e.pin? ≠ some GPIO_SER_BIN ∧
        e.pin? ≠ some GPIO_CLK_BIN ∧ e.pin? ≠ some GPIO_CLR_BIN) := by
  have h8 : value.testBit 8 = false := Nat.testBit_lt_two_pow (by omega)
  have hlen : ∀ SER CLK CLR, (shiftOutSequence value SER CLK CLR).length = 29 := by
    intro SER CLK CLR
    simp [shiftOutSequence, List.range, List.range.loop]
  have h26 : ∀ SER CLK CLR, (shiftOutSequence value SER CLK CLR)[26]? = some (Ev.bitClear SER) := by
    intro SER CLK CLR
    simp [shiftOutSequence, List.range, List.range.loop, h8]
  rcases hr with rfl | rfl
  · refine ⟨GPIO_SER_BIN, GPIO_CLK_BIN, GPIO_CLR_BIN, _, by decide, fun _ => ⟨rfl, rfl, rfl⟩,
      fun h => absurd h (by decide), shiftOut_binary value, rfl, hlen _ _ _,
      (shiftOutSequence_clock_count value _ _ _ (by decide) (by decide)).1,
      (shiftOutSequence_clock_count value _ _ _ (by decide) (by decide)).2,
      h26 _ _ _, shiftOutSequence_pins value _ _ _, ?_, ?_, ?_⟩
    · intro e he
      rcases shiftOutSequence_pins value _ _ _ e he with h | h | h <;> rw [h] <;> decide
    · intro _ e he
      rcases shiftOutSequence_pins value _ _ _ e he with h | h | h <;> rw [h] <;> decide
    · intro h; exact absurd h (by decide)
  · refine ⟨GPIO_SER_SEG, GPIO_CLK_SEG, GPIO_CLR_SEG, _, by decide, fun h => absurd h (by decide),
      fun _ => ⟨rfl, rfl, rfl⟩, shiftOut_segment value, rfl, hlen _ _ _,
      (shiftOutSequence_clock_count value _ _ _ (by decide) (by decide)).1,
      (shiftOutSequence_clock_count value _ _ _ (by decide) (by decide)).2,
      h26 _ _ _, shiftOutSequence_pins value _ _ _, ?_, ?_, ?_⟩
    · intro e he
      rcases shiftOutSequence_pins value _ _ _ e he with h | h | h <;> rw [h] <;> decide
    · intro h; exact absurd h (by decide)
    · intro _ e he
      rcases shiftOutSequence_pins value _ _ _ e he with h | h | h <;> rw [h] <;> decide

/-- Witness for C4: `shiftOut(0xA5, SEGMENT_REG)`. -/
theorem shiftOut_write_sequence_witness :
    (0xA5 < 256 ∧ (SEGMENT_REG = BINARY_REG ∨ SEGMENT_REG = SEGMENT_REG)) ∧
    shiftOut 0xA5 SEGMENT_REG = some
      [.bitClear 29, .bitSet 29,
       .bitSet 32, .bitSet 30, .bitClear 30, .bitClear 32, .bitSet 30, .bitClear 30,
       .bitSet 32, .bitSet 30, .bitClear 30, .bitClear 32, .bitSet 30, .bitClear 30,
       .bitClear 32, .bitSet 30, .bitClear 30, .bitSet 32, .bitSet 30, .bitClear 30,
       .bitClear 32, .bitSet 30, .bitClear 30, .bitSet 32, .bitSet 30, .bitClear 30,
       .bitClear 32, .bitSet 30, .bitClear 30] ∧
    ∃ SER CLK CLR tr,
      shiftOutLines SEGMENT_REG = some (SER, CLK, CLR) ∧
      (SEGMENT_REG = BINARY_REG → SER = GPIO_SER_BIN ∧ CLK = GPIO_CLK_BIN ∧ CLR = GPIO_CLR_BIN) ∧
      (SEGMENT_REG = SEGMENT_REG → SER = GPIO_SER_SEG ∧ CLK = GPIO_CLK_SEG ∧ CLR = GPIO_CLR_SEG) ∧
      shiftOut 0xA5 SEGMENT_REG = some tr ∧
      tr = shiftOutSequence 0xA5 SER CLK CLR ∧
      tr.length = 29 ∧
      tr.count (Ev.bitSet CLK) = 9 ∧ tr.count (Ev.bitClear CLK) = 9 ∧
      tr[26]? = some (Ev.bitClear SER) ∧
      (∀ e ∈ tr, e.pin? = some SER ∨ e.pin? = some CLK ∨ e.pin? = some CLR) ∧
      (∀ e ∈ tr, e.pin? ≠ some GPIO_OE_BIN ∧ e.pin? ≠ some GPIO_OE_SEG) ∧
      (SEGMENT_REG = BINARY_REG → ∀ e ∈ tr, e.pin? ≠ some GPIO_SER_SEG ∧
        e.pin? ≠ some GPIO_CLK_SEG ∧ e.pin? ≠ some GPIO_CLR_SEG) ∧
      (SEGMENT_REG = SEGMENT_REG → ∀ e ∈ tr, e.pin? ≠ some GPIO_SER_BIN ∧
        e.pin? ≠ some GPIO_CLK_BIN ∧ e.pin? ≠ some GPIO_CLR_BIN) :=
  ⟨⟨by decide, Or.inr rfl⟩, by decide,
    shiftOut_write_sequence 0xA5 (by decide) SEGMENT_REG (Or.inr rfl)⟩

/-! ## The segment encoder `displayInt` -/

theorem array_entry (digit : Nat) (h : digit < 10) :
    ∃ entry, array[digit]? = some entry ∧ entry < 256 ∧
      uint8 (~~~ (entry : Int)) = entry ^^^ 0xFF ∧ entry ^^^ 0xFF = 255 - entry := by
  interval_cases digit <;> exact ⟨_, rfl, by decide, by decide, by decide⟩

theorem displayIntHead_range (number place : Int) (h0 : 0 ≤ number) (h1 : number ≤ 255) :
    0 ≤ (displayIntHead number place).2 ∧ (displayIntHead number place).2 ≤ 9 ∧
    (displayIntHead number 0).2 = number % 10 ∧
    (place ≠ 0 → (displayIntHead number place).2 = number / 10 % 10) ∧
    (displayIntHead number place).1 =
      [Ev.bitClear HUNDREDS1, Ev.bitClear HUNDREDS2]
        ++ (if number ≥ 200 then [Ev.bitSet HUNDREDS1] else [])
        ++ (if number ≥ 100 then [Ev.bitSet HUNDREDS2] else []) := by
  unfold displayIntHead
  by_cases c2 : number ≥ 200
  · have c1 : number - 100 ≥ 100 := by omega
    have c3 : number ≥ 100 := by omega
    simp only [c2, c1, c3, if_true]
    rw [Int.tmod_eq_emod (by omega) (by omega), Int.tdiv_eq_ediv (by omega) (by omega)]
    refine ⟨?_, ?_, ?_, ?_, by simp⟩
    · split <;> omega
    · split <;> omega
    · omega
    · intro hp; simp [hp]; omega
  · by_cases c1 : number ≥ 100
    · simp only [c2, c1, if_true, if_false]
      rw [Int.tmod_eq_emod (by omega) (by omega), Int.tdiv_eq_ediv (by omega) (by omega)]
      refine ⟨?_, ?_, ?_, ?_, by simp⟩
      · split <;> omega
      · split <;> omega
      · omega
      · intro hp; simp [hp]; omega
    · simp only [c2, c1, if_false]
      rw [Int.tmod_eq_emod (by omega) (by omega), Int.tdiv_eq_ediv (by omega) (by omega)]
      refine ⟨?_, ?_, ?_, ?_, by simp⟩
      · split <;> omega
      · split <;> omega
      · simp
      · intro hp; simp [hp]; omega

theorem displayInt_eq (number place : Int) (h0 : 0 ≤ number) (h1 : number ≤ 255) :
    ∃ (digit : Nat) (entry : Nat), (displayIntHead number place).2 = (digit : Int) ∧ digit < 10 ∧
      array[digit]? = some entry ∧ entry < 256 ∧
      displayInt number place = some ((displayIntHead number place).1 ++
        shiftOutSequence (entry ^^^ 0xFF) GPIO_SER_SEG GPIO_CLK_SEG GPIO_CLR_SEG) := by
  obtain ⟨r0, r9, -, -, -⟩ := displayIntHead_range number place h0 h1
  obtain ⟨digit, hd⟩ : ∃ digit : Nat, (displayIntHead number place).2 = (digit : Int) :=
    ⟨(displayIntHead number place).2.toNat, by omega⟩
  have hlt : digit < 10 := by omega
  obtain ⟨entry, he, hb, hu, -⟩ := array_entry digit hlt
  refine ⟨digit, entry, hd, hlt, he, hb, ?_⟩
  have hs := shiftOut_segment (entry ^^^ 0xFF)
  simp only [SEGMENT_REG] at hs
  simp only [displayInt, hd, Int.toNat_ofNat, he, hu, hs]
  simp

theorem segment_sequence_frame (value q : Nat) (p : Pins)
    (h : q ≠ GPIO_SER_SEG ∧ q ≠ GPIO_CLK_SEG ∧ q ≠ GPIO_CLR_SEG) :
    run (shiftOutSequence value GPIO_SER_SEG GPIO_CLK_SEG GPIO_CLR_SEG) p q = p q := by
  apply run_frame
  intro e he h2
  rcases shiftOutSequence_pins value _ _ _ e he with h3 | h3 | h3 <;>
    · rw [h3] at h2
      injection h2 with h4
      simp [← h4] at h

theorem displayInt_hundreds (number place : Int) (h0 : 0 ≤ number) (h1 : number ≤ 255)
    (p : Pins) :
    ∃ d, displayInt number place = some d ∧
      run d p HUNDREDS1 = decide (number ≥ 200) ∧ run d p HUNDREDS2 = decide (number ≥ 100) := by
  obtain ⟨digit, entry, -, -, -, -, hd⟩ := displayInt_eq number place h0 h1
  obtain ⟨-, -, -, -, hh⟩ := displayIntHead_range number place h0 h1
  refine ⟨_, hd, ?_, ?_⟩
  · rw [run_append, segment_sequence_frame _ _ _ (by decide), hh]
    by_cases c2 : number ≥ 200 <;> by_cases c1 : number ≥ 100 <;>
      simp [c1, c2, run, Ev.apply, HUNDREDS1, HUNDREDS2]
  · rw [run_append, segment_sequence_frame _ _ _ (by decide), hh]
    by_cases c2 : number ≥ 200 <;> by_cases c1 : number ≥ 100 <;>
      simp [c1, c2, run, Ev.apply, HUNDREDS1, HUNDREDS2]

/-- Claim C1. For every `number` in [0,255] and `place` in {0,1}, `displayInt`
selects a digit in [0,9], which is inside the ten-entry table `array`, and after
its writes to the hundreds LEDs its pin writes are those of `shiftOut` on the
segment register with the table entry of that digit complemented within 8
bits. -/
theorem displayInt_emits_inverted_entry (number place : Int) (h0 : 0 ≤ number)
    (h1 : number ≤ 255) (hp : place = 0 ∨ place = 1) :
    array = [0x77, 0x11, 0x6B, 0x3B, 0x1D, 0x3E, 0x7E, 0x13, 0x7F, 0x3F] ∧
    ∃ (digit entry : Nat) (s : List Ev),
      (displayIntHead number place).2 = (digit : Int) ∧ digit ≤ 9 ∧ digit < array.length ∧
      (digit : Int) = (if place = 0 then number % 10 else number / 10 % 10) ∧
      array[digit]? = some entry ∧
      entry ^^^ 0xFF = 255 - entry ∧
      (∀ i, i < 8 → (entry ^^^ 0xFF).testBit i = !entry.testBit i) ∧
      shiftOut (entry ^^^ 0xFF) SEGMENT_REG = some s ∧
      displayInt number place = some ((displayIntHead number place).1 ++ s) ∧
      (∀ e ∈ (displayIntHead number place).1,
        e.pin? = some HUNDREDS1 ∨ e.pin? = some HUNDREDS2) := by
  refine ⟨rfl, ?_⟩
  obtain ⟨digit, entry, hd, hlt, he, hb, hdisp⟩ := displayInt_eq number place h0 h1
  obtain ⟨-, -, hones, htens, hh⟩ := displayIntHead_range number place h0 h1
  obtain ⟨entry2, he2, -, -, hx⟩ := array_entry digit hlt
  have hee : entry2 = entry := by rw [he] at he2; exact (Option.some.inj he2).symm
  subst hee
  refine ⟨digit, entry2, _, hd, by omega, by simpa [array] using hlt, ?_, he, hx, ?_,
    shiftOut_segment _, hdisp, ?_⟩
  · rcases hp with rfl | rfl
    · rw [← hd, hones]; simp
    · rw [← hd, htens (by decide)]; simp
  · intro i hi
    have h255 : (255 : Nat).testBit i = true := by
      interval_cases i <;> decide
    simp [Nat.testBit_xor, h255]
  · intro e he
    rw [hh] at he
    by_cases c2 : number ≥ 200 <;> by_cases c1 : number ≥ 100 <;>
      simp [c1, c2] at he <;> rcases he with rfl | rfl | rfl | rfl <;>
      simp [Ev.pin?]

/-- Witness for C1: the scenarios `number = 0` (table index 0, entry `0x77`, for
both places) and `number = 237` (index 3, entry `0x3B`, for the tens; index 7,
entry `0x13`, for the ones). -/
theorem displayInt_emits_inverted_entry_witness :
    ((0 : Int) ≤ 237 ∧ (237 : Int) ≤ 255 ∧ ((1 : Int) = 0 ∨ (1 : Int) = 1)) ∧
    ((displayIntHead 0 0).2 = 0 ∧ (displayIntHead 0 1).2 = 0 ∧ array[0]? = some 0x77 ∧
      displayInt 0 0 = (shiftOut (0x77 ^^^ 0xFF) SEGMENT_REG).map
        (fun s => [Ev.bitClear HUNDREDS1, Ev.bitClear HUNDREDS2] ++ s) ∧
      displayInt 0 1 = displayInt 0 0) ∧
    ((displayIntHead 237 1).2 = 3 ∧ array[3]? = some 0x3B ∧
      displayInt 237 1 = (shiftOut (0x3B ^^^ 0xFF) SEGMENT_REG).map
        (fun s => [Ev.bitClear HUNDREDS1, Ev.bitClear HUNDREDS2, Ev.bitSet HUNDREDS1,
          Ev.bitSet HUNDREDS2] ++ s)) ∧
    ((displayIntHead 237 0).2 = 7 ∧ array[7]? = some 0x13 ∧
      displayInt 237 0 = (shiftOut (0x13 ^^^ 0xFF) SEGMENT_REG).map
        (fun s => [Ev.bitClear HUNDREDS1, Ev.bitClear HUNDREDS2, Ev.bitSet HUNDREDS1,
          Ev.bitSet HUNDREDS2] ++ s)) ∧
    ∃ (digit entry : Nat) (s : List Ev),
      (displayIntHead 237 1).2 = (digit : Int) ∧ digit ≤ 9 ∧ digit < array.length ∧
      (digit : Int) = (if (1 : Int) = 0 then (237 : Int) % 10 else (237 : Int) / 10 % 10) ∧
      array[digit]? = some entry ∧
      entry ^^^ 0xFF = 255 - entry ∧
      (∀ i, i < 8 → (entry ^^^ 0xFF).testBit i = !entry.testBit i) ∧
      shiftOut (entry ^^^ 0xFF) SEGMENT_REG = some s ∧
      displayInt 237 1 = some ((displayIntHead 237 1).1 ++ s) ∧
      (∀ e ∈ (displayIntHead 237 1).1,
        e.pin? = some HUNDREDS1 ∨ e.pin? = some HUNDREDS2) :=
  ⟨⟨by decide, by decide, Or.inr rfl⟩, by decide, by decide, by decide,
    (displayInt_emits_inverted_entry 237 1 (by decide) (by decide) (Or.inr rfl)).2⟩

/-- Claim C2. `displayInt` performs a decimal decomposition: for every `number`
in [0,255] and every prior pin state, with `h` the number of hundreds indicators
left high by `displayInt` (the same for both places), `ones` the digit selected
with `place = 0` and `tens` the digit selected with `place = 1`,
`number = 100*h + 10*tens + ones`, and `ones = number % 10`,
`tens = number / 10 % 10`, `h = number / 100`. -/
theorem displayInt_decimal_decomposition (number : Int) (h0 : 0 ≤ number) (h1 : number ≤ 255)
    (p : Pins) :
    ∃ d0 d1, displayInt number 0 = some d0 ∧ displayInt number 1 = some d1 ∧
      hundredsCount (run d0 p) = hundredsCount (run d1 p) ∧
      hundredsCount (run d0 p) ≤ 2 ∧
      number = 100 * (hundredsCount (run d0 p) : Int) + 10 * (displayIntHead number 1).2
        + (displayIntHead number 0).2 ∧
      (displayIntHead number 0).2 = number % 10 ∧
      (displayIntHead number 1).2 = number / 10 % 10 ∧
      (hundredsCount (run d0 p) : Int) = number / 100 := by
  obtain ⟨d0, e0, a0, b0⟩ := displayInt_hundreds number 0 h0 h1 p
  obtain ⟨d1, e1, a1, b1⟩ := displayInt_hundreds number 1 h0 h1 p
  obtain ⟨-, -, hones, -, -⟩ := displayIntHead_range number 0 h0 h1
  obtain ⟨-, -, -, htens, -⟩ := displayIntHead_range number 1 h0 h1
  have htens := htens (by decide)
  refine ⟨d0, d1, e0, e1, ?_, ?_, ?_, hones, htens, ?_⟩
  · simp [hundredsCount, a0, b0, a1, b1]
  · simp only [hundredsCount, a0, b0]
    split <;> split <;> simp
  · rw [hones, htens]
    simp only [hundredsCount, a0, b0]
    by_cases c2 : number ≥ 200 <;> by_cases c1 : number ≥ 100 <;> simp [c1, c2] <;> omega
  · simp only [hundredsCount, a0, b0]
    by_cases c2 : number ≥ 200 <;> by_cases c1 : number ≥ 100 <;> simp [c1, c2] <;> omega

/-- Witness for C2: `number = 237` from the all-low pin state gives two
hundreds, tens digit 3 and ones digit 7. -/
theorem displayInt_decimal_decomposition_witness :
    ((0 : Int) ≤ 237 ∧ (237 : Int) ≤ 255) ∧
    ((displayIntHead 237 1).2 = 3 ∧ (displayIntHead 237 0).2 = 7) ∧
    ∃ d0 d1, displayInt 237 0 = some d0 ∧ displayInt 237 1 = some d1 ∧
      hundredsCount (run d0 (fun _ => false)) = hundredsCount (run d1 (fun _ => false)) ∧
      hundredsCount (run d0 (fun _ => false)) ≤ 2 ∧
      (237 : Int) = 100 * (hundredsCount (run d0 (fun _ => false)) : Int)
        + 10 * (displayIntHead 237 1).2 + (displayIntHead 237 0).2 ∧
      (displayIntHead 237 0).2 = (237 : Int) % 10 ∧
      (displayIntHead 237 1).2 = (237 : Int) / 10 % 10 ∧
      (hundredsCount (run d0 (fun _ => false)) : Int) = (237 : Int) / 100 :=
  ⟨⟨by decide, by decide⟩, by decide,
    displayInt_decimal_decomposition 237 (by decide) (by decide) (fun _ => false)⟩

/-- Claim C3. For every `number` in [0,255], every `place` in {0,1} and every
prior pin state, `displayInt(number, place)` returns, and afterwards the
`HUNDREDS1` pin is high iff `number >= 200` and the `HUNDREDS2` pin is high iff
`number >= 100`. -/
theorem displayInt_hundreds_indicators (number place : Int) (h0 : 0 ≤ number)
    (h1 : number ≤ 255) (_hp : place = 0 ∨ place = 1) (p : Pins) :
    ∃ d, displayInt number place = some d ∧
      (run d p HUNDREDS1 = true ↔ number ≥ 200) ∧
      (run d p HUNDREDS2 = true ↔ number ≥ 100) := by
  obtain ⟨d, e, a, b⟩ := displayInt_hundreds number place h0 h1 p
  exact ⟨d, e, by simp [a], by simp [b]⟩

/-- Witness for C3: `number = 150`, `place = 0`, from the state with every pin
high: only indicator 2 is left high. -/
theorem displayInt_hundreds_indicators_witness :
    ((0 : Int) ≤ 150 ∧ (150 : Int) ≤ 255 ∧ ((0 : Int) = 0 ∨ (0 : Int) = 1)) ∧
    ∃ d, displayInt 150 0 = some d ∧
      (run d (fun _ => true) HUNDREDS1 = true ↔ (150 : Int) ≥ 200) ∧
      (run d (fun _ => true) HUNDREDS2 = true ↔ (150 : Int) ≥ 100) :=
  ⟨⟨by decide, by decide, Or.inl rfl⟩,
    displayInt_hundreds_indicators 150 0 (by decide) (by decide) (Or.inl rfl) (fun _ => true)⟩

/-! ## `shiftOut` against the shift register -/

theorem regRun_cons (SER CLK CLR : Nat) (e : Ev) (tr : List Ev) (s : Pins × Nat) :
    regRun SER CLK CLR (e :: tr) s = regRun SER CLK CLR tr (regStep SER CLK CLR s e) := rfl

theorem regStep_clear (SER CLK CLR : Nat) (p : Pins) (r : Nat) :
    regStep SER CLK CLR (p, r) (Ev.bitClear CLR) = ((Ev.bitClear CLR).apply p, 0) := by
  simp [regStep, Ev.apply]

theorem shiftOutSequence_head (value SER CLK CLR : Nat) :
    ∃ rest, shiftOutSequence value SER CLK CLR = Ev.bitClear CLR :: rest :=
  ⟨_, rfl⟩

theorem regRun_sequence (value SER CLK CLR : Nat) (p : Pins) (r1 r2 : Nat) :
    regRun SER CLK CLR (shiftOutSequence value SER CLK CLR) (p, r1) =
      regRun SER CLK CLR (shiftOutSequence value SER CLK CLR) (p, r2) := by
  obtain ⟨rest, h⟩ := shiftOutSequence_head value SER CLK CLR
  rw [h, regRun_cons, regRun_cons, regStep_clear, regStep_clear]

/-- Claim C5. `shiftOut` is a full overwrite: with the addressed register modelled
as an 8-bit shift register that the clear line zeroes and that shifts the data
line in on each rising clock edge, for every `value`, every `reg` in
{`BINARY_REG`, `SEGMENT_REG`}, every prior pin state and every two prior register
contents, `shiftOut(value, reg)` leaves the same register contents in both
runs. -/
theorem shiftOut_full_overwrite (value : Nat) (reg : Int)
    (hr : reg = BINARY_REG ∨ reg = SEGMENT_REG) (p : Pins) (r1 r2 : Nat) :
    ∃ SER CLK CLR tr,
      shiftOutLines reg = some (SER, CLK, CLR) ∧ shiftOut value reg = some tr ∧
      (regRun SER CLK CLR tr (p, r1)).2 = (regRun SER CLK CLR tr (p, r2)).2 := by
  rcases hr with rfl | rfl
  · exact ⟨GPIO_SER_BIN, GPIO_CLK_BIN, GPIO_CLR_BIN, _, by decide, shiftOut_binary value,
      by rw [regRun_sequence]⟩
  · exact ⟨GPIO_SER_SEG, GPIO_CLK_SEG, GPIO_CLR_SEG, _, by decide, shiftOut_segment value,
      by rw [regRun_sequence]⟩

/-- Witness for C5: `shiftOut(0xA5, SEGMENT_REG)` from the all-low pin state
leaves contents `0x4A` whether the register held `0x00` or `0xFF`, whereas a bare
clock pulse leaves contents that differ with the prior ones. -/
theorem shiftOut_full_overwrite_witness :
    (SEGMENT_REG = BINARY_REG ∨ SEGMENT_REG = SEGMENT_REG) ∧
    ((shiftOut 0xA5 SEGMENT_REG).map
      (fun tr => (regRun GPIO_SER_SEG GPIO_CLK_SEG GPIO_CLR_SEG tr (fun _ => false, 0xFF)).2)
        = some 0x4A) ∧
    (regRun GPIO_SER_SEG GPIO_CLK_SEG GPIO_CLR_SEG
        [Ev.bitSet GPIO_CLR_SEG, Ev.bitSet GPIO_CLK_SEG, Ev.bitClear GPIO_CLK_SEG]
        (fun _ => false, 0x01)).2 ≠
      (regRun GPIO_SER_SEG GPIO_CLK_SEG GPIO_CLR_SEG
        [Ev.bitSet GPIO_CLR_SEG, Ev.bitSet GPIO_CLK_SEG, Ev.bitClear GPIO_CLK_SEG]
        (fun _ => false, 0x00)).2 ∧
    ∃ SER CLK CLR tr,
      shiftOutLines SEGMENT_REG = some (SER, CLK, CLR) ∧ shiftOut 0xA5 SEGMENT_REG = some tr ∧
      (regRun SER CLK CLR tr (fun _ => false, 0x00)).2 =
        (regRun SER CLK CLR tr (fun _ => false, 0xFF)).2 :=
  ⟨Or.inr rfl, by decide, by decide,
    shiftOut_full_overwrite 0xA5 SEGMENT_REG (Or.inr rfl) (fun _ => false) 0x00 0xFF⟩

/-! ## Properties that hold after every action of a run -/

theorem Along_append (Q : List Ev → Pins → Prop) (done a b : List Ev) (p : Pins) :
    Along Q done (a ++ b) p ↔ Along Q done a p ∧ Along Q (done ++ a) b (run a p) := by
  induction a generalizing done p with
  | nil => simp [Along, run_nil]
  | cons e a ih =>
    have h := ih (done ++ [e]) (e.apply p)
    simp only [List.append_assoc, List.singleton_append] at h
    simp only [List.cons_append, Along, run_cons, List.append_assoc, List.singleton_append,
      and_assoc]
    rw [← h]
    simp [List.append_assoc]

theorem Along_iff (Q : List Ev → Pins → Prop) (done tr : List Ev) (p : Pins) :
    Along Q done tr p ↔ ∀ pre, pre <+: tr → pre ≠ [] → Q (done ++ pre) (run pre p) := by
  induction tr generalizing done p with
  | nil =>
    simp only [Along, true_iff]
    intro pre hpre hne
    exact absurd (List.prefix_nil.mp hpre) hne
  | cons e tr ih =>
    simp only [Along, ih, List.prefix_cons_iff]
    constructor
    · rintro ⟨h1, h2⟩ pre (rfl | ⟨t, rfl, ht⟩) hne
      · exact absurd rfl hne
      · by_cases htn : t = []
        · subst htn; simpa [run_cons, run_nil] using h1
        · have := h2 t ht htn
          simpa [run_cons] using this
    · intro h
      refine ⟨?_, ?_⟩
      · have := h [e] (Or.inr ⟨[], rfl, List.nil_prefix⟩) (by simp)
        simpa [run_cons, run_nil] using this
      · intro t ht htn
        have := h (e :: t) (Or.inr ⟨t, rfl, ht⟩) (by simp)
        simpa [run_cons] using this

theorem Avoids_append (pins : List Nat) (a b : List Ev) :
    Avoids pins (a ++ b) ↔ Avoids pins a ∧ Avoids pins b := by
  simp only [Avoids, List.mem_append]
  constructor
  · intro h; exact ⟨fun e he => h e (Or.inl he), fun e he => h e (Or.inr he)⟩
  · rintro ⟨h1, h2⟩ e (he | he)
    · exact h1 e he
    · exact h2 e he

theorem Avoids_initial (pins : List Nat) (pre tr : List Ev) (h : Avoids pins tr)
    (hp : pre <+: tr) : Avoids pins pre :=
  fun e he => h e (hp.subset he)

theorem Avoids_run (pins : List Nat) (tr : List Ev) (h : Avoids pins tr) (p : Pins) (q : Nat)
    (hq : q ∈ pins) : run tr p q = p q :=
  run_frame tr p q (fun e he => h e he q hq)

theorem Avoids_mono (pins pins2 : List Nat) (tr : List Ev) (h : Avoids pins tr)
    (hs : ∀ q ∈ pins2, q ∈ pins) : Avoids pins2 tr :=
  fun e he q hq => h e he q (hs q hq)

theorem Avoids_flatten_replicate (pins : List Nat) (tr : List Ev) (n : Nat) (h : Avoids pins tr) :
    Avoids pins (List.replicate n tr).flatten := by
  induction n with
  | zero => intro e he; simp at he
  | succ n ih =>
    rw [List.replicate_succ, List.flatten_cons, Avoids_append]
    exact ⟨h, ih⟩

theorem shiftOutSequence_avoids (value SER CLK CLR : Nat) (pins : List Nat)
    (h : SER ∉ pins ∧ CLK ∉ pins ∧ CLR ∉ pins) :
    Avoids pins (shiftOutSequence value SER CLK CLR) := by
  intro e he q hq h2
  rcases shiftOutSequence_pins value SER CLK CLR e he with h3 | h3 | h3 <;>
    · rw [h3] at h2
      injection h2 with h4
      subst h4
      simp [hq] at h

theorem displayInt_avoids (number place : Int) (h0 : 0 ≤ number) (h1 : number ≤ 255)
    (pins : List Nat)
    (h : HUNDREDS1 ∉ pins ∧ HUNDREDS2 ∉ pins ∧ GPIO_SER_SEG ∉ pins ∧ GPIO_CLK_SEG ∉ pins ∧
      GPIO_CLR_SEG ∉ pins) :
    ∃ d, displayInt number place = some d ∧ Avoids pins d := by
  obtain ⟨digit, entry, -, -, -, -, hd⟩ := displayInt_eq number place h0 h1
  obtain ⟨-, -, -, -, hh⟩ := displayIntHead_range number place h0 h1
  refine ⟨_, hd, ?_⟩
  rw [Avoids_append]
  refine ⟨?_, shiftOutSequence_avoids _ _ _ _ _ ⟨h.2.2.1, h.2.2.2.1, h.2.2.2.2⟩⟩
  rw [hh]
  intro e he q hq h2
  have hp : e.pin? = some HUNDREDS1 ∨ e.pin? = some HUNDREDS2 := by
    by_cases c2 : number ≥ 200 <;> by_cases c1 : number ≥ 100 <;>
      simp [c1, c2] at he <;> rcases he with rfl | rfl | rfl | rfl <;>
      simp [Ev.pin?]
  rcases hp with h3 | h3 <;>
    · rw [h3] at h2
      injection h2 with h4
      subst h4
      simp [hq] at h

/-! ## The multiplexer pass -/

theorem pass_eq (integer : Nat) (hi : integer < 256) (pins : List Nat)
    (h : HUNDREDS1 ∉ pins ∧ HUNDREDS2 ∉ pins ∧ GPIO_SER_SEG ∉ pins ∧ GPIO_CLK_SEG ∉ pins ∧
      GPIO_CLR_SEG ∉ pins) :
    ∃ d0 d1, displayInt integer 0 = some d0 ∧ displayInt integer 1 = some d1 ∧
      Avoids pins d0 ∧ Avoids pins d1 ∧
      pass integer = some ([Ev.bitSet ONES, Ev.bitClear TENS] ++ d0
        ++ [Ev.bitClear GPIO_OE_SEG, Ev.delayMs 1, Ev.bitSet GPIO_OE_SEG]
        ++ [Ev.bitSet TENS, Ev.bitClear ONES] ++ d1
        ++ [Ev.bitClear GPIO_OE_SEG, Ev.delayMs 1, Ev.bitSet GPIO_OE_SEG]) := by
  obtain ⟨d0, e0, a0⟩ := displayInt_avoids integer 0 (by omega) (by omega) pins h
  obtain ⟨d1, e1, a1⟩ := displayInt_avoids integer 1 (by omega) (by omega) pins h
  exact ⟨d0, d1, e0, e1, a0, a1, by simp only [pass, e0, e1]⟩

theorem quiet_facts (d q : List Ev) (p : Pins) (h : Avoids [ONES, TENS, GPIO_OE_SEG] d)
    (hq : q <+: d) :
    run q p 8 = p 8 ∧ run q p 9 = p 9 ∧ run q p 31 = p 31 ∧
    oeSegClears q = 0 ∧
    q.getLast? ≠ some (Ev.bitSet ONES) ∧ q.getLast? ≠ some (Ev.bitSet TENS) := by
  have hq2 := Avoids_initial _ _ _ h hq
  refine ⟨Avoids_run _ _ hq2 p ONES (by simp), Avoids_run _ _ hq2 p TENS (by simp),
    Avoids_run _ _ hq2 p GPIO_OE_SEG (by simp), ?_, ?_, ?_⟩
  · rw [oeSegClears, List.count_eq_zero]
    intro hm
    exact hq2 _ hm GPIO_OE_SEG (by simp) rfl
  · intro hl
    exact hq2 _ (List.mem_of_getLast?_eq_some hl) ONES (by simp) rfl
  · intro hl
    exact hq2 _ (List.mem_of_getLast?_eq_some hl) TENS (by simp) rfl

theorem oeSegClears_nil : oeSegClears [] = 0 := rfl

theorem oeSegClears_cons (e : Ev) (l : List Ev) :
    oeSegClears (e :: l) = oeSegClears l + (if e = Ev.bitClear GPIO_OE_SEG then 1 else 0) := by
  by_cases h : e = Ev.bitClear GPIO_OE_SEG <;> simp [oeSegClears, List.count_cons, h]

theorem oeSegClears_append (a b : List Ev) :
    oeSegClears (a ++ b) = oeSegClears a + oeSegClears b := by
  simp [oeSegClears]

/-- Claim C6. In a multiplexer pass, for every counter value and every pin state
on entry, at every point inside a segment output-enable pulse (`GPIO_OE_SEG` is
low, after its clear in this pass; for an entry state with `GPIO_OE_SEG` high
that is every point where the pin is low) exactly one of the `ONES` and `TENS`
anode pins is high: `ONES` alone during the first pulse and `TENS` alone during
the second. The pass has exactly these two pulses. -/
theorem pass_one_anode_per_pulse (integer : Nat) (hi : integer < 256) :
    ∃ tr, pass integer = some tr ∧ oeSegClears tr = 2 ∧
      ∀ (p : Pins) (pre : List Ev), pre <+: tr → run pre p GPIO_OE_SEG = false →
        (0 < oeSegClears pre ∨ p GPIO_OE_SEG = true) →
          (oeSegClears pre = 1 ∧ run pre p ONES = true ∧ run pre p TENS = false) ∨
          (oeSegClears pre = 2 ∧ run pre p ONES = false ∧ run pre p TENS = true) := by
  obtain ⟨d0, d1, -, -, a0, a1, hp⟩ := pass_eq integer hi [ONES, TENS, GPIO_OE_SEG] (by decide)
  refine ⟨_, hp, ?_, ?_⟩
  · have c0 := (quiet_facts d0 d0 (fun _ => false) a0 (List.prefix_refl _)).2.2.2.1
    have c1 := (quiet_facts d1 d1 (fun _ => false) a1 (List.prefix_refl _)).2.2.2.1
    simp only [oeSegClears_append, c0, c1]
    decide
  · intro p pre hpre hlow hin
    by_cases hne : pre = []
    · subst hne
      simp [oeSegClears, run_nil] at hin hlow
      simp [hin] at hlow
    · have key : Along (fun pre s => s 31 = false → (0 < oeSegClears pre ∨ p 31 = true) →
          (oeSegClears pre = 1 ∧ s 8 = true ∧ s 9 = false) ∨
          (oeSegClears pre = 2 ∧ s 8 = false ∧ s 9 = true)) []
          ([Ev.bitSet ONES, Ev.bitClear TENS] ++ d0
            ++ [Ev.bitClear GPIO_OE_SEG, Ev.delayMs 1, Ev.bitSet GPIO_OE_SEG]
            ++ [Ev.bitSet TENS, Ev.bitClear ONES] ++ d1
            ++ [Ev.bitClear GPIO_OE_SEG, Ev.delayMs 1, Ev.bitSet GPIO_OE_SEG]) p := by
        have c0 := (quiet_facts d0 d0 (fun _ => false) a0 (List.prefix_refl _)).2.2.2.1
        have c1 := (quiet_facts d1 d1 (fun _ => false) a1 (List.prefix_refl _)).2.2.2.1
        have r0 := fun s => quiet_facts d0 d0 s a0 (List.prefix_refl _)
        have r1 := fun s => quiet_facts d1 d1 s a1 (List.prefix_refl _)
        simp only [Along_append, run_append, List.nil_append]
        refine ⟨⟨⟨⟨⟨?_, ?_⟩, ?_⟩, ?_⟩, ?_⟩, ?_⟩
        · simp only [Along, List.nil_append, List.cons_append, and_true]
          refine ⟨?_, ?_⟩ <;> intro h1 h2 <;>
            simp [oeSegClears_cons, oeSegClears_nil, Ev.apply, ONES, TENS, GPIO_OE_SEG] at h1 h2 <;>
            simp [h2] at h1
        · rw [Along_iff]
          intro q hq hqn h1 h2
          obtain ⟨f8, f9, f31, fc, -, -⟩ := quiet_facts d0 q
            (run [Ev.bitSet ONES, Ev.bitClear TENS] p) a0 hq
          rw [f31] at h1
          simp [oeSegClears_append, oeSegClears_cons, oeSegClears_nil, fc, run_cons, run_nil,
            Ev.apply, ONES, TENS, GPIO_OE_SEG] at h1 h2
          simp [h2] at h1
        · simp only [Along, List.append_assoc, List.cons_append, List.nil_append, and_true]
          simp [oeSegClears_append, oeSegClears_cons, oeSegClears_nil, c0, run_cons, run_nil,
            Ev.apply, ONES, TENS, GPIO_OE_SEG, (r0 _).1, (r0 _).2.1]
        · simp only [Along, List.append_assoc, List.cons_append, List.nil_append, and_true]
          simp [run_cons, run_nil, Ev.apply, ONES, TENS, GPIO_OE_SEG]
        · rw [Along_iff]
          intro q hq hqn h1 h2
          obtain ⟨f8, f9, f31, fc, -, -⟩ := quiet_facts d1 q
            (run [Ev.bitSet TENS, Ev.bitClear ONES]
              (run [Ev.bitClear GPIO_OE_SEG, Ev.delayMs 1, Ev.bitSet GPIO_OE_SEG]
                (run d0 (run [Ev.bitSet ONES, Ev.bitClear TENS] p)))) a1 hq
          rw [f31] at h1
          simp [run_cons, run_nil, Ev.apply, ONES, TENS, GPIO_OE_SEG] at h1
        · simp only [Along, List.append_assoc, List.cons_append, List.nil_append, and_true]
          simp [oeSegClears_append, oeSegClears_cons, oeSegClears_nil, c0, c1, run_cons, run_nil,
            Ev.apply, ONES, TENS, GPIO_OE_SEG, (r1 _).1, (r1 _).2.1]
      have := (Along_iff _ _ _ _).mp key pre hpre hne
      simp only [List.nil_append] at this
      exact this hlow hin

/-- Witness for C6: the pass for counter value 237, and its state after the
first clear of `GPIO_OE_SEG` (36 actions in) from the state with every pin
high: `ONES` high, `TENS` low. -/
theorem pass_one_anode_per_pulse_witness :
    (237 < 256) ∧
    ((pass 237).map (fun tr => (tr.length, (tr.take 36).getLast?,
        run (tr.take 36) (fun _ => true) ONES, run (tr.take 36) (fun _ => true) TENS,
        run (tr.take 36) (fun _ => true) GPIO_OE_SEG))
      = some (76, some (Ev.bitClear GPIO_OE_SEG), true, false, false)) ∧
    ∃ tr, pass 237 = some tr ∧ oeSegClears tr = 2 ∧
      ∀ (p : Pins) (pre : List Ev), pre <+: tr → run pre p GPIO_OE_SEG = false →
        (0 < oeSegClears pre ∨ p GPIO_OE_SEG = true) →
          (oeSegClears pre = 1 ∧ run pre p ONES = true ∧ run pre p TENS = false) ∨
          (oeSegClears pre = 2 ∧ run pre p ONES = false ∧ run pre p TENS = true) :=
  ⟨by decide, by decide, pass_one_anode_per_pulse 237 (by decide)⟩

/-! ## The interrupt handler and the dwell loop -/

theorem wrap32_id (z : Int) (h0 : -2147483648 ≤ z) (h1 : z ≤ 2147483647) : wrap32 z = z := by
  unfold wrap32; omega

theorem wrap32_wrap32_add (a b : Int) : wrap32 (wrap32 a + b) = wrap32 (a + b) := by
  unfold wrap32; omega

theorem isrTimes_add (m n : Nat) (d : Int) : isrTimes (m + n) d = isrTimes n (isrTimes m d) := by
  induction m generalizing d with
  | zero => simp [isrTimes]
  | succ m ih => rw [Nat.succ_add, isrTimes, isrTimes, ih]

theorem isrTimes_wrap (n : Nat) (d : Int) : isrTimes n (wrap32 d) = wrap32 (d + 100 * n) := by
  induction n generalizing d with
  | zero => simp [isrTimes]
  | succ n ih =>
    rw [isrTimes, am_gpio_isr, wrap32_wrap32_add, ih]
    congr 1
    push_cast
    ring

theorem isrTimes_eq (n : Nat) (d : Int) (h0 : -2147483648 ≤ d) (h1 : d + 100 * n ≤ 2147483647) :
    isrTimes n d = d + 100 * n := by
  have h := isrTimes_wrap n d
  rw [wrap32_id d h0 (by omega), wrap32_id _ (by omega) h1] at h
  exact h

theorem irqSum_succ (irq : Nat → Nat) (x n : Nat) :
    irqSum irq x (n + 1) = irqSum irq x n + irq (x + n) := by
  induction n generalizing x with
  | zero => simp [irqSum]
  | succ n ih =>
    rw [irqSum, ih (x + 1), irqSum]
    have : x + 1 + n = x + (n + 1) := by omega
    rw [this]; omega

theorem irqSum_mono (irq : Nat → Nat) (x j n : Nat) (h : j ≤ n) :
    irqSum irq x j ≤ irqSum irq x n := by
  induction n with
  | zero => have : j = 0 := by omega
            subst this; exact Nat.le_refl _
  | succ n ih =>
    rcases Nat.lt_or_ge j (n + 1) with h2 | h2
    · have := ih (by omega)
      rw [irqSum_succ]; omega
    · have : j = n + 1 := by omega
      subst this; exact Nat.le_refl _

theorem irqSum_zero (irq : Nat → Nat) (h : ∀ x, irq x = 0) (x n : Nat) : irqSum irq x n = 0 := by
  induction n generalizing x with
  | zero => rfl
  | succ n ih => rw [irqSum, h, ih]

theorem dwellLoop_spec (integer : Nat) (pz : List Ev) (hpz : pass integer = some pz)
    (irq : Nat → Nat) (fuel x : Nat) (d : Int) :
    ∃ r, dwellLoop integer irq fuel x d = some r ∧
      r.trace = (List.replicate r.passes pz).flatten ∧
      r.delay = isrTimes (irqSum irq x r.passes) d ∧
      (r.finished = true → ¬ (((x + r.passes : Nat) : Int) < r.delay)) ∧
      (∀ j, j < r.passes → ((x + j : Nat) : Int) < isrTimes (irqSum irq x j) d) ∧
      (r.finished = false → r.passes = fuel) := by
  induction fuel generalizing x d with
  | zero =>
    exact ⟨_, rfl, by simp, by simp [irqSum, isrTimes], by simp, by simp, by simp⟩
  | succ fuel ih =>
    by_cases hc : (x : Int) < d
    · obtain ⟨r, hr, h1, h2, h3, h4, h5⟩ := ih (x + 1) (isrTimes (irq x) d)
      refine ⟨⟨pz ++ r.trace, r.delay, r.passes + 1, r.finished⟩, ?_, ?_, ?_, ?_, ?_, ?_⟩
      · simp only [dwellLoop, hc, if_true, hpz, hr]
      · simp [List.replicate_succ, h1]
      · simp only [irqSum]
        rw [isrTimes_add]
        exact h2
      · intro hf
        have := h3 hf
        simp only at hf ⊢
        have e : x + (r.passes + 1) = x + 1 + r.passes := by omega
        rw [e]; exact this
      · intro j hj
        cases j with
        | zero => simpa [irqSum, isrTimes] using hc
        | succ j =>
          have := h4 j (by simpa using hj)
          simp only [irqSum]
          rw [isrTimes_add]
          have e : x + (j + 1) = x + 1 + j := by omega
          rw [e]; exact this
      · intro hf
        have := h5 hf
        simp only; omega
    · refine ⟨⟨[], d, 0, true⟩, ?_, by simp, by simp [irqSum, isrTimes], ?_, by simp, by simp⟩
      · simp only [dwellLoop, hc, if_false]
      · intro _; simpa using hc


theorem isrTimes_init (n : Nat) : isrTimes n delayInit = wrap32 (100 + 100 * n) := by
  have h := isrTimes_wrap n 100
  rw [wrap32_id 100 (by decide) (by decide)] at h
  exact h

theorem isrTimes_succ_last (n : Nat) (d : Int) :
    isrTimes (n + 1) d = am_gpio_isr (isrTimes n d) := by
  rw [isrTimes_add]; rfl

theorem dwellLoop_count (integer : Nat) (hi : integer < 256) (irq : Nat → Nat) (fuel : Nat)
    (delay : Int) (hd : 0 ≤ delay) :
    ∃ r, dwellLoop integer irq fuel 0 delay = some r ∧
      r.delay = isrTimes (irqSum irq 0 r.passes) delay ∧
      (r.finished = true → delay + 100 * (irqSum irq 0 r.passes : Int) ≤ 2147483647 →
        (r.passes : Int) = delay + 100 * (irqSum irq 0 r.passes : Int) ∧
        (r.passes : Int) = r.delay) ∧
      ((∀ x, irq x = 0) → delay < fuel → r.finished = true ∧ (r.passes : Int) = delay) ∧
      (delay = 0 → 0 < fuel → r.finished = true ∧ r.passes = 0) := by
  obtain ⟨d0, d1, -, -, -, -, hp⟩ := pass_eq integer hi [] (by simp)
  obtain ⟨r, hr, -, h2, h3, h4, h5⟩ := dwellLoop_spec integer _ hp irq fuel 0 delay
  refine ⟨r, hr, h2, ?_, ?_, ?_⟩
  rotate_left 2
  · intro hz hf
    obtain ⟨k, rfl⟩ : ∃ k, fuel = k + 1 := ⟨fuel - 1, by omega⟩
    subst hz
    simp only [dwellLoop, Nat.cast_zero, lt_self_iff_false, if_false, Option.some.injEq] at hr
    subst hr
    exact ⟨rfl, rfl⟩
  · intro hf hmax
    have h3 := h3 hf
    rw [h2, isrTimes_eq _ _ (by omega) hmax] at h3
    rw [h2, isrTimes_eq _ _ (by omega) hmax]
    have hle : delay + 100 * (irqSum irq 0 r.passes : Int) ≤ r.passes := by
      simpa using h3
    have hge : (r.passes : Int) ≤ delay + 100 * (irqSum irq 0 r.passes : Int) := by
      rcases Nat.eq_zero_or_pos r.passes with hz | hpos
      · rw [hz]; simp [irqSum]; exact hd
      · have h := h4 (r.passes - 1) (by omega)
        have hm : irqSum irq 0 (r.passes - 1) ≤ irqSum irq 0 r.passes :=
          irqSum_mono irq 0 _ _ (by omega)
        rw [isrTimes_eq _ _ (by omega) (by omega)] at h
        simp only [Nat.zero_add] at h
        omega
    omega
  · intro hz hlt
    have hz2 : ∀ n, irqSum irq 0 n = 0 := irqSum_zero irq hz 0
    have hfin : r.finished = true := by
      cases hfin : r.finished with
      | true => rfl
      | false =>
        have hpf := h5 hfin
        have hfp : 0 < fuel := by omega
        have h := h4 (fuel - 1) (by omega)
        rw [hz2] at h
        simp only [isrTimes, Nat.zero_add] at h
        omega
    refine ⟨hfin, ?_⟩
    have h3 := h3 hfin
    rw [h2, hz2] at h3
    simp only [isrTimes, Nat.zero_add] at h3
    rcases Nat.eq_zero_or_pos r.passes with hz3 | hpos
    · rw [hz3] at h3 ⊢; simp at h3 ⊢; omega
    · have h := h4 (r.passes - 1) (by omega)
      rw [hz2] at h
      simp only [isrTimes, Nat.zero_add] at h
      omega

/-- Claim C8, as amended. The dwell loop reads `delay` at every evaluation of its
condition. For every counter value, every schedule of handler invocations and
every non-negative `delay` at loop entry: when the loop ends and `delay` has not
overflowed, the number of passes equals `delay` as it stands at the final check,
which is the entry value plus 100 for every handler invocation during the
passes made. With no handler invocation during the loop it ends after exactly
as many passes as `delay` at entry; a `delay` of 0 at entry gives no pass under
any schedule. -/
theorem dwell_passes_follow_delay (integer : Nat) (hi : integer < 256) (irq : Nat → Nat)
    (fuel : Nat) (delay : Int) (hd : 0 ≤ delay) :
    ∃ r, dwellLoop integer irq fuel 0 delay = some r ∧
      (r.finished = true → delay + 100 * (irqSum irq 0 r.passes : Int) ≤ 2147483647 →
        (r.passes : Int) = delay + 100 * (irqSum irq 0 r.passes : Int) ∧
        (r.passes : Int) = r.delay) ∧
      ((∀ x, irq x = 0) → delay < fuel → r.finished = true ∧ (r.passes : Int) = delay) ∧
      (delay = 0 → 0 < fuel → r.finished = true ∧ r.passes = 0) := by
  obtain ⟨r, hr, -, h1, h2, h3⟩ := dwellLoop_count integer hi irq fuel delay hd
  exact ⟨r, hr, h1, h2, h3⟩

/-- Witness for C8 (as amended): the first counter value with `delay` at its
initial value and no handler invocation gets exactly 100 passes, and a `delay`
of 0 gives none. -/
theorem dwell_passes_follow_delay_witness :
    (0 < 256 ∧ (0 : Int) ≤ delayInit) ∧
    (∃ r, dwellLoop 0 (fun _ => 0) 101 0 delayInit = some r ∧
      r.finished = true ∧ (r.passes : Int) = 100) ∧
    (∃ r, dwellLoop 0 (fun _ => 7) 1 0 0 = some r ∧
      r.finished = true ∧ r.passes = 0) :=
  ⟨⟨by decide, by decide⟩,
    (dwell_passes_follow_delay 0 (by decide) (fun _ => 0) 101 delayInit (by decide)).imp
      (fun _ h => ⟨h.1, h.2.2.1 (fun _ => rfl) (by decide)⟩),
    (dwell_passes_follow_delay 0 (by decide) (fun _ => 7) 1 0 (by decide)).imp
      (fun _ h => ⟨h.1, h.2.2.2 rfl (by decide)⟩)⟩

set_option maxRecDepth 1000000 in
/-- Counterexample to C8 as stated: the dwell loop entered with `delay = 100`
for the first counter value, with one handler invocation during its first pass,
makes 200 passes, not the 100 that `delay` held at loop entry. -/
theorem dwell_passes_counterexample :
    ∃ r, dwellLoop 0 (fun x => if x = 0 then 1 else 0) 201 0 delayInit = some r ∧
      r.finished = true ∧ r.passes = 200 ∧ (r.passes : Int) ≠ delayInit := by
  have h : (dwellLoop 0 (fun x => if x = 0 then 1 else 0) 201 0 delayInit).map
      (fun r => (r.finished, r.passes)) = some (true, 200) := by decide
  match hr : dwellLoop 0 (fun x => if x = 0 then 1 else 0) 201 0 delayInit with
  | none => rw [hr] at h; simp at h
  | some r =>
    rw [hr] at h
    simp only [Option.map_some', Option.some.injEq, Prod.mk.injEq] at h
    exact ⟨r, rfl, h.1, h.2, by rw [h.2]; decide⟩

theorem whileBody_spec (integer : Nat) (hi : integer < 256) (before : Nat) (irq : Nat → Nat)
    (fuel : Nat) (delay : Int) :
    ∃ pz r w, pass integer = some pz ∧
      dwellLoop integer irq fuel 0 (isrTimes before delay) = some r ∧
      r.trace = (List.replicate r.passes pz).flatten ∧
      whileBody integer before irq fuel delay = some w ∧
      w.trace = shiftOutSequence integer GPIO_SER_BIN GPIO_CLK_BIN GPIO_CLR_BIN
        ++ [Ev.bitClear GPIO_OE_BIN] ++ r.trace
        ++ (if r.finished then [Ev.bitSet GPIO_OE_BIN, Ev.printf integer] else []) ∧
      w.delay = isrTimes (before + irqSum irq 0 r.passes) delay ∧
      w.passes = r.passes ∧ w.finished = r.finished := by
  obtain ⟨d0, d1, -, -, -, -, hp⟩ := pass_eq integer hi [] (by simp)
  obtain ⟨r, hr, h1, h2, -, -, -⟩ := dwellLoop_spec integer _ hp irq fuel 0 (isrTimes before delay)
  refine ⟨_, r, ⟨shiftOutSequence integer GPIO_SER_BIN GPIO_CLK_BIN GPIO_CLR_BIN
        ++ [Ev.bitClear GPIO_OE_BIN] ++ r.trace
        ++ (if r.finished then [Ev.bitSet GPIO_OE_BIN, Ev.printf integer] else []),
      r.delay, r.passes, r.finished⟩, hp, hr, h1, ?_, rfl, ?_, rfl, rfl⟩
  · simp only [whileBody, shiftOut_binary, hr]
  · simp only [h2, isrTimes_add]

/-- Claim C9, as amended. `delay` is 100 at startup, and a handler invocation
adds exactly 100 to it as long as the sum fits the 32-bit `int`: after
`n ≤ 21474835` invocations it equals `100 + 100*n`, and it is non-decreasing
over these invocations. The counter loop itself never writes it: after an
iteration of the counter loop `delay` is what the handler invocations during
that iteration made of it, and unchanged if there was none. -/
theorem delay_grows_by_100 (n : Nat) (hn : n ≤ 21474835) :
    delayInit = 100 ∧ isrTimes 0 delayInit = 100 ∧
    isrTimes n delayInit = 100 + 100 * (n : Int) ∧
    (n < 21474835 → am_gpio_isr (isrTimes n delayInit) = isrTimes n delayInit + 100) ∧
    (∀ m, m ≤ n → isrTimes m delayInit ≤ isrTimes n delayInit) ∧
    (∀ integer before irq fuel, integer < 256 →
      ∃ w, whileBody integer before irq fuel (isrTimes n delayInit) = some w ∧
        w.delay = isrTimes (before + irqSum irq 0 w.passes) (isrTimes n delayInit) ∧
        (before = 0 → (∀ x, irq x = 0) → w.delay = isrTimes n delayInit)) := by
  have hcl : ∀ m : Nat, m ≤ 21474835 → isrTimes m delayInit = 100 + 100 * (m : Int) := by
    intro m hm
    exact isrTimes_eq m 100 (by decide) (by omega)
  refine ⟨rfl, rfl, hcl n hn, ?_, ?_, ?_⟩
  · intro hlt
    rw [← isrTimes_succ_last, hcl n hn, hcl (n + 1) (by omega)]
    push_cast; ring
  · intro m hm
    rw [hcl n hn, hcl m (by omega)]
    omega
  · intro integer before irq fuel hi
    obtain ⟨pz, r, w, -, -, -, hw, -, hd, hpass, -⟩ :=
      whileBody_spec integer hi before irq fuel (isrTimes n delayInit)
    refine ⟨w, hw, by rw [hpass]; exact hd, ?_⟩
    intro hb hz
    rw [hd, hb, irqSum_zero irq hz]
    rfl

/-- Witness for C9 (as amended): three handler invocations take `delay` from
100 to 400. -/
theorem delay_grows_by_100_witness :
    (3 ≤ 21474835) ∧ isrTimes 3 delayInit = 400 ∧
    (delayInit = 100 ∧ isrTimes 0 delayInit = 100 ∧
    isrTimes 3 delayInit = 100 + 100 * ((3 : Nat) : Int) ∧
    (3 < 21474835 → am_gpio_isr (isrTimes 3 delayInit) = isrTimes 3 delayInit + 100) ∧
    (∀ m, m ≤ 3 → isrTimes m delayInit ≤ isrTimes 3 delayInit) ∧
    (∀ integer before irq fuel, integer < 256 →
      ∃ w, whileBody integer before irq fuel (isrTimes 3 delayInit) = some w ∧
        w.delay = isrTimes (before + irqSum irq 0 w.passes) (isrTimes 3 delayInit) ∧
        (before = 0 → (∀ x, irq x = 0) → w.delay = isrTimes 3 delayInit))) :=
  ⟨by decide, by decide, delay_grows_by_100 3 (by decide)⟩

/-- Counterexample to C9 as stated: at the 32-bit width of `int`, the
21474836th handler invocation takes `delay` from 2147483600 to -2147483596,
which is neither `100 + 100*21474836` nor at least the value before. -/
theorem delay_overflow_counterexample :
    isrTimes 21474835 delayInit = 2147483600 ∧
    am_gpio_isr 2147483600 = -2147483596 ∧
    isrTimes 21474836 delayInit = -2147483596 ∧
    isrTimes 21474836 delayInit ≠ 100 + 100 * ((21474836 : Nat) : Int) ∧
    isrTimes 21474836 delayInit < isrTimes 21474835 delayInit := by
  have h1 : isrTimes 21474835 delayInit = 2147483600 := by
    rw [isrTimes_init]; decide
  have h2 : isrTimes 21474836 delayInit = -2147483596 := by
    rw [isrTimes_init]; decide
  refine ⟨h1, by decide, h2, ?_, ?_⟩
  · rw [h2]; decide
  · rw [h1, h2]; decide


/-! ## The counter loop -/

theorem Keeps_nil : Keeps [] := by
  intro done s hs
  exact ⟨trivial, hs⟩

theorem Keeps_append (a b : List Ev) (ha : Keeps a) (hb : Keeps b) : Keeps (a ++ b) := by
  intro done s hs
  obtain ⟨h1, h2⟩ := ha done s hs
  obtain ⟨h3, h4⟩ := hb (done ++ a) (run a s) h2
  exact ⟨(Along_append _ _ _ _ _).mpr ⟨h1, h3⟩, by rw [run_append]; exact h4⟩

theorem Keeps_quiet (d : List Ev) (h : Avoids [ONES, TENS, GPIO_OE_SEG] d) : Keeps d := by
  intro done s hs
  have hs2 : s 31 = true ∧ ¬ (s 8 = true ∧ s 9 = true) := hs
  refine ⟨?_, ?_⟩
  · rw [Along_iff]
    intro q hq _ hboth
    obtain ⟨f8, f9, -, -, -, -⟩ := quiet_facts d q s h hq
    have hboth2 : run q s 8 = true ∧ run q s 9 = true := hboth
    rw [f8, f9] at hboth2
    exact absurd hboth2 hs2.2
  · obtain ⟨f8, f9, f31, -, -, -⟩ := quiet_facts d d s h (List.prefix_refl _)
    show run d s 31 = true ∧ ¬ (run d s 8 = true ∧ run d s 9 = true)
    rw [f8, f9, f31]
    exact hs2

theorem Keeps_ones : Keeps [Ev.bitSet ONES, Ev.bitClear TENS] := by
  intro done s hs
  have hs2 : s 31 = true ∧ ¬ (s 8 = true ∧ s 9 = true) := hs
  simp [Along, AnodesOk, Dark, run_cons, run_nil, Ev.apply, ONES, TENS, GPIO_OE_SEG, hs2.1]

theorem Keeps_tens : Keeps [Ev.bitSet TENS, Ev.bitClear ONES] := by
  intro done s hs
  have hs2 : s 31 = true ∧ ¬ (s 8 = true ∧ s 9 = true) := hs
  simp [Along, AnodesOk, Dark, run_cons, run_nil, Ev.apply, ONES, TENS, GPIO_OE_SEG, hs2.1]

theorem Keeps_pulse :
    Keeps [Ev.bitClear GPIO_OE_SEG, Ev.delayMs 1, Ev.bitSet GPIO_OE_SEG] := by
  intro done s hs
  have hs2 : s 31 = true ∧ ¬ (s 8 = true ∧ s 9 = true) := hs
  have h3 : s 8 = true → s 9 = false := by
    intro h8
    cases h9 : s 9 with
    | false => rfl
    | true => exact absurd ⟨h8, h9⟩ hs2.2
  simp [Along, AnodesOk, Dark, run_cons, run_nil, Ev.apply, ONES, TENS, GPIO_OE_SEG]
  exact h3

theorem Keeps_pass (integer : Nat) (hi : integer < 256) :
    ∃ pz, pass integer = some pz ∧ Keeps pz := by
  obtain ⟨d0, d1, -, -, a0, a1, hp⟩ := pass_eq integer hi [ONES, TENS, GPIO_OE_SEG] (by decide)
  refine ⟨_, hp, ?_⟩
  exact Keeps_append _ _ (Keeps_append _ _ (Keeps_append _ _ (Keeps_append _ _
    (Keeps_append _ _ Keeps_ones (Keeps_quiet _ a0)) Keeps_pulse) Keeps_tens)
    (Keeps_quiet _ a1)) Keeps_pulse

theorem Keeps_replicate (tr : List Ev) (n : Nat) (h : Keeps tr) :
    Keeps (List.replicate n tr).flatten := by
  induction n with
  | zero => exact Keeps_nil
  | succ n ih =>
    rw [List.replicate_succ, List.flatten_cons]
    exact Keeps_append _ _ h ih

theorem Keeps_whileBody (integer : Nat) (hi : integer < 256) (before : Nat) (irq : Nat → Nat)
    (fuel : Nat) (delay : Int) :
    ∃ w, whileBody integer before irq fuel delay = some w ∧ Keeps w.trace := by
  obtain ⟨pz, r, w, hp, -, ht, hw, hwt, -, -, -⟩ := whileBody_spec integer hi before irq fuel delay
  obtain ⟨pz2, hp2, hk⟩ := Keeps_pass integer hi
  have : pz2 = pz := by rw [hp] at hp2; exact (Option.some.inj hp2).symm
  subst this
  refine ⟨w, hw, ?_⟩
  rw [hwt, ht]
  refine Keeps_append _ _ (Keeps_append _ _ (Keeps_append _ _
    (Keeps_quiet _ (shiftOutSequence_avoids _ _ _ _ _ (by decide))) (Keeps_quiet _ ?_))
    (Keeps_replicate _ _ hk)) ?_
  · intro e he q hq
    simp at he; subst he
    simp [ONES, TENS, GPIO_OE_SEG] at hq
    rcases hq with rfl | rfl | rfl <;> simp [Ev.pin?, GPIO_OE_BIN]
  · split
    · apply Keeps_quiet
      intro e he q hq
      simp [ONES, TENS, GPIO_OE_SEG] at hq
      simp at he
      rcases he with rfl | rfl <;> rcases hq with rfl | rfl | rfl <;>
        simp [Ev.pin?, GPIO_OE_BIN]
    · exact Keeps_nil

theorem Keeps_mainLoop (sched : Schedule) (fuel iters k integer : Nat) (hi : integer < 256)
    (delay : Int) :
    ∃ tr, mainLoop sched fuel iters k integer delay = some tr ∧ Keeps tr := by
  induction iters generalizing k integer delay with
  | zero => exact ⟨[], rfl, Keeps_nil⟩
  | succ iters ih =>
    obtain ⟨w, hw, hk⟩ :=
      Keeps_whileBody integer hi (sched.before k) (sched.during k) fuel delay
    obtain ⟨tr, htr, hk2⟩ := ih (k + 1) ((integer + 1) % 256) (by omega) w.delay
    by_cases hf : w.finished = true
    · exact ⟨w.trace ++ tr, by simp only [mainLoop, hw, hf, if_true, htr],
        Keeps_append _ _ hk hk2⟩
    · exact ⟨w.trace, by simp only [mainLoop, hw, hf]; simp, hk⟩

theorem Dark_mainInit (p : Pins) : Dark (run mainInit p) := by
  simp [Dark, mainInit, run_cons, run_nil, Ev.apply, ONES, TENS, GPIO_OE_SEG, GPIO_SER_BIN,
    GPIO_OE_BIN, GPIO_CLK_BIN, GPIO_CLR_BIN, GPIO_SER_SEG, GPIO_CLK_SEG, GPIO_CLR_SEG, HUNDREDS1,
    HUNDREDS2]

/-- Claim C7, as amended. From any power-on pin state, after every single pin
write of the counter loop of `main` (for every interrupt schedule and any number
of iterations, so from the start of the first multiplexer pass onward and across
pass boundaries): if both the `ONES` and the `TENS` anode pins are high, then the
write just made was the set of one of the two anodes (the clear of the other
comes next) and `GPIO_OE_SEG` is high; so whenever `GPIO_OE_SEG` is low at most
one anode pin is high. -/
theorem anodes_overlap_only_between_set_and_clear (sched : Schedule) (fuel iters : Nat)
    (p : Pins) :
    ∃ tr, mainTrace sched fuel iters = some tr ∧
      ∀ (pre : List Ev) (e : Ev), pre ++ [e] <+: tr →
        (run (mainInit ++ (pre ++ [e])) p ONES = true ∧
          run (mainInit ++ (pre ++ [e])) p TENS = true →
            run (mainInit ++ (pre ++ [e])) p GPIO_OE_SEG = true ∧
            (e = Ev.bitSet ONES ∨ e = Ev.bitSet TENS)) ∧
        (run (mainInit ++ (pre ++ [e])) p GPIO_OE_SEG = false →
          ¬ (run (mainInit ++ (pre ++ [e])) p ONES = true ∧
            run (mainInit ++ (pre ++ [e])) p TENS = true)) := by
  obtain ⟨tr, htr, hk⟩ := Keeps_mainLoop sched fuel iters 0 0 (by decide) delayInit
  refine ⟨tr, htr, ?_⟩
  intro pre e hpre
  have h := (Along_iff _ _ _ _).mp (hk [] (run mainInit p) (Dark_mainInit p)).1 (pre ++ [e]) hpre
    (by simp)
  rw [run_append]
  have h2 : run (pre ++ [e]) (run mainInit p) ONES = true ∧
      run (pre ++ [e]) (run mainInit p) TENS = true →
      run (pre ++ [e]) (run mainInit p) GPIO_OE_SEG = true ∧
      (e = Ev.bitSet ONES ∨ e = Ev.bitSet TENS) := by
    intro hb
    have := h hb
    simpa using this
  refine ⟨h2, ?_⟩
  intro hlow hb
  have := (h2 hb).1
  rw [hlow] at this
  exact absurd this (by decide)

/-- Counterexample to C7 as stated: in the first multiplexer pass of the first
iteration, right after the write that sets `TENS` (write 67 of the counter loop;
the first pass starts after write 30) and before the write that clears `ONES`,
both anode pins are high. -/
theorem anodes_both_high_counterexample :
    ∃ tr, mainTrace Schedule.none 1 1 = some tr ∧
      (tr.take 30).getLast? = some (Ev.bitClear GPIO_OE_BIN) ∧
      tr[30]? = some (Ev.bitSet ONES) ∧
      (tr.take 67).getLast? = some (Ev.bitSet TENS) ∧
      tr[67]? = some (Ev.bitClear ONES) ∧
      run (mainInit ++ tr.take 67) (fun _ => false) ONES = true ∧
      run (mainInit ++ tr.take 67) (fun _ => false) TENS = true ∧
      ¬ (run (mainInit ++ tr.take 67) (fun _ => false) ONES = true →
          run (mainInit ++ tr.take 67) (fun _ => false) TENS = false) :=
  ⟨_, rfl, by decide, by decide, by decide, by decide, by decide, by decide, by decide⟩


theorem avoids_iff_pins (tr : List Ev) :
    Avoids [GPIO_OE_BIN, GPIO_SER_BIN, GPIO_CLK_BIN, GPIO_CLR_BIN] tr ↔
      ∀ e ∈ tr, e.pin? ≠ some GPIO_OE_BIN ∧ e.pin? ≠ some GPIO_SER_BIN ∧
        e.pin? ≠ some GPIO_CLK_BIN ∧ e.pin? ≠ some GPIO_CLR_BIN := by
  constructor
  · intro h e he
    exact ⟨h e he _ (by simp), h e he _ (by simp), h e he _ (by simp), h e he _ (by simp)⟩
  · intro h e he q hq
    obtain ⟨h1, h2, h3, h4⟩ := h e he
    simp at hq
    rcases hq with rfl | rfl | rfl | rfl <;> assumption

theorem pass_avoids_binary (integer : Nat) (hi : integer < 256) :
    ∃ pz, pass integer = some pz ∧
      Avoids [GPIO_OE_BIN, GPIO_SER_BIN, GPIO_CLK_BIN, GPIO_CLR_BIN] pz := by
  obtain ⟨d0, d1, -, -, a0, a1, hp⟩ :=
    pass_eq integer hi [GPIO_OE_BIN, GPIO_SER_BIN, GPIO_CLK_BIN, GPIO_CLR_BIN] (by decide)
  refine ⟨_, hp, ?_⟩
  simp only [Avoids_append]
  refine ⟨⟨⟨⟨⟨?_, a0⟩, ?_⟩, ?_⟩, a1⟩, ?_⟩ <;> (unfold Avoids; decide)

/-- Claim C10. In every iteration of the counter loop, for every counter value,
every `delay` and every interrupt schedule (so every dwell count): the iteration
writes `GPIO_OE_BIN` low right after `shiftOut(integer, BINARY_REG)` and before
the dwell loop; the dwell loop is the multiplexer pass repeated, and no action of
it (none of a pass, hence none of `displayInt` or of the `shiftOut` it calls)
writes `GPIO_OE_BIN`, `GPIO_SER_BIN`, `GPIO_CLK_BIN` or `GPIO_CLR_BIN`, so that
`GPIO_OE_BIN` is low after every action of the dwell loop; `GPIO_OE_BIN` is
written high only after the last pass, once the dwell loop has ended. -/
theorem binary_enable_held_through_dwell (integer : Nat) (hi : integer < 256) (before : Nat)
    (irq : Nat → Nat) (fuel : Nat) (delay : Int) :
    ∃ sh pz r w, shiftOut integer BINARY_REG = some sh ∧ pass integer = some pz ∧
      dwellLoop integer irq fuel 0 (isrTimes before delay) = some r ∧
      r.trace = (List.replicate r.passes pz).flatten ∧
      whileBody integer before irq fuel delay = some w ∧
      w.trace = sh ++ [Ev.bitClear GPIO_OE_BIN] ++ r.trace
        ++ (if r.finished then [Ev.bitSet GPIO_OE_BIN, Ev.printf integer] else []) ∧
      (∀ e ∈ pz, e.pin? ≠ some GPIO_OE_BIN ∧ e.pin? ≠ some GPIO_SER_BIN ∧
        e.pin? ≠ some GPIO_CLK_BIN ∧ e.pin? ≠ some GPIO_CLR_BIN) ∧
      (∀ e ∈ r.trace, e.pin? ≠ some GPIO_OE_BIN ∧ e.pin? ≠ some GPIO_SER_BIN ∧
        e.pin? ≠ some GPIO_CLK_BIN ∧ e.pin? ≠ some GPIO_CLR_BIN) ∧
      (∀ (p : Pins) (pre : List Ev), pre <+: r.trace →
        run (sh ++ [Ev.bitClear GPIO_OE_BIN] ++ pre) p GPIO_OE_BIN = false) ∧
      (r.finished = true → ∀ p : Pins, run w.trace p GPIO_OE_BIN = true) := by
  obtain ⟨pz, r, w, hp, hr, ht, hw, hwt, -, -, -⟩ := whileBody_spec integer hi before irq fuel delay
  obtain ⟨pz2, hp2, ha⟩ := pass_avoids_binary integer hi
  have : pz2 = pz := by rw [hp] at hp2; exact (Option.some.inj hp2).symm
  subst this
  have har : Avoids [GPIO_OE_BIN, GPIO_SER_BIN, GPIO_CLK_BIN, GPIO_CLR_BIN] r.trace := by
    rw [ht]; exact Avoids_flatten_replicate _ _ _ ha
  refine ⟨_, pz2, r, w, shiftOut_binary integer, hp, hr, ht, hw, hwt,
    (avoids_iff_pins _).mp ha, (avoids_iff_pins _).mp har, ?_, ?_⟩
  · intro p pre hpre
    rw [run_append, Avoids_run _ _ (Avoids_initial _ _ _ har hpre) _ GPIO_OE_BIN (by simp),
      run_append]
    simp [run_cons, run_nil, Ev.apply]
  · intro hf p
    rw [hwt, hf]
    simp [run_append, run_cons, run_nil, Ev.apply]

set_option maxRecDepth 100000 in
/-- Witness for C10: counter value 5 with `delay = 2` and no interrupt. -/
theorem binary_enable_held_through_dwell_witness :
    (5 < 256) ∧
    ((whileBody 5 0 (fun _ => 0) 3 2).map (fun w => (w.trace.length, w.passes, w.finished))
      = some (176, 2, true)) ∧
    ∃ sh pz r w, shiftOut 5 BINARY_REG = some sh ∧ pass 5 = some pz ∧
      dwellLoop 5 (fun _ => 0) 3 0 (isrTimes 0 2) = some r ∧
      r.trace = (List.replicate r.passes pz).flatten ∧
      whileBody 5 0 (fun _ => 0) 3 2 = some w ∧
      w.trace = sh ++ [Ev.bitClear GPIO_OE_BIN] ++ r.trace
        ++ (if r.finished then [Ev.bitSet GPIO_OE_BIN, Ev.printf 5] else []) ∧
      (∀ e ∈ pz, e.pin? ≠ some GPIO_OE_BIN ∧ e.pin? ≠ some GPIO_SER_BIN ∧
        e.pin? ≠ some GPIO_CLK_BIN ∧ e.pin? ≠ some GPIO_CLR_BIN) ∧
      (∀ e ∈ r.trace, e.pin? ≠ some GPIO_OE_BIN ∧ e.pin? ≠ some GPIO_SER_BIN ∧
        e.pin? ≠ some GPIO_CLK_BIN ∧ e.pin? ≠ some GPIO_CLR_BIN) ∧
      (∀ (p : Pins) (pre : List Ev), pre <+: r.trace →
        run (sh ++ [Ev.bitClear GPIO_OE_BIN] ++ pre) p GPIO_OE_BIN = false) ∧
      (r.finished = true → ∀ p : Pins, run w.trace p GPIO_OE_BIN = true) :=
  ⟨by decide, by decide, binary_enable_held_through_dwell 5 (by decide) 0 (fun _ => 0) 3 2⟩

end BinaryCounter
